import Mathlib

/-!
Shallow embedding of the Minesweeper decision engine (`src/solver.py`,
helpers from `src/board_manager.py`, constants from `src/config.py`).

Conventions of the embedding:
* Cell states are the strings used by the Python code; a numbered cell is
  the decimal string of its count, modelled by the constructor `num n`
  (so `is_numbered_cell` is `isdigit ∧ ≠ "0"`, i.e. `n ≠ 0`).
* A board is its shape together with a cell-state function; the Python
  code only ever indexes in bounds, and every scan below follows the
  source's row-major loops.
* Python `set`s of coordinates become duplicate-free `List`s; set
  intersection cardinality `len(a & b)` becomes `(a.filter (· ∈ b)).length`,
  which agrees whenever `a` is duplicate-free (proved where used).
* Python `dict`s become association lists in insertion order.
* Python `float` division is modelled by exact rational division (`ℚ`);
  `int((rows*cols)*0.15)` truncation is modelled by natural division
  `3*(rows*cols)/20`, which agrees with the float computation for all
  realizable board sizes.
-/

abbrev Coord : Type := Nat × Nat

inductive CellState where
  | covered
  | flagged
  | mine
  | uncovered
  | unknown
  | num (n : Nat)
deriving DecidableEq, Repr

inductive MoveAction where
  | reveal
  | flag
deriving DecidableEq, Repr

abbrev Move : Type := Coord × MoveAction

/-- A constraint `(cells, required)`: `required` mines lie inside `cells`. -/
abbrev Constraint : Type := List Coord × Nat

structure Board where
  rows : Nat
  cols : Nat
  cell : Nat → Nat → CellState

namespace Solver

/-- `config.MAX_CONFIGURATIONS` from `src/config.py`. -/
def MAX_CONFIGURATIONS : Nat := 10000

/-- `config.ENABLE_LOGIC_RULES` from `src/config.py`. -/
def ENABLE_LOGIC_RULES : Bool := true

/-- `config.ENABLE_PROBABILITY_CALCULATION` from `src/config.py`. -/
def ENABLE_PROBABILITY_CALCULATION : Bool := true

/-- `is_numbered_cell`: the state is a digit string other than `"0"`. -/
def is_numbered_cell : CellState → Bool
  | .num n => n != 0
  | _ => false

/-- `get_cell_value`: numeric value of a numbered cell, else 0. -/
def get_cell_value : CellState → Nat
  | .num n => n
  | _ => 0

/-- Row-major list of all coordinates of a `rows × cols` grid (the order of
the nested `for row in range(rows): for col in range(cols)` loops). -/
def all_coords (rows cols : Nat) : List Coord :=
  (List.range rows).flatMap (fun r => (List.range cols).map (fun c => (r, c)))

/-- `board_manager.get_neighbors`: the set of in-bounds coordinates at
Chebyshev distance exactly 1 from `(row, col)`. -/
def get_neighbors (rows cols row col : Nat) : List Coord :=
  (all_coords rows cols).filter (fun p =>
    Nat.dist p.1 row ≤ 1 && Nat.dist p.2 col ≤ 1 && !(p.1 == row && p.2 == col))

/-- `get_numbered_cells`: row-major scan for numbered cells. -/
def get_numbered_cells (b : Board) : List Coord :=
  (all_coords b.rows b.cols).filter (fun p => is_numbered_cell (b.cell p.1 p.2))

/-- `get_unrevealed_neighbors`: covered neighbors of a cell. -/
def get_unrevealed_neighbors (b : Board) (row col : Nat) : List Coord :=
  (get_neighbors b.rows b.cols row col).filter
    (fun p => b.cell p.1 p.2 == CellState.covered)

/-- `get_flagged_neighbors`: flagged neighbors of a cell. -/
def get_flagged_neighbors (b : Board) (row col : Nat) : List Coord :=
  (get_neighbors b.rows b.cols row col).filter
    (fun p => b.cell p.1 p.2 == CellState.flagged)

/-- Rule 1 block of `apply_logic_rules`: if `|unrevealed| + |flagged| = n`,
flag every unrevealed neighbor. -/
def cell_flag_moves (b : Board) (p : Coord) : List Move :=
  let number := get_cell_value (b.cell p.1 p.2)
  let unrevealed := get_unrevealed_neighbors b p.1 p.2
  let flagged := get_flagged_neighbors b p.1 p.2
  if unrevealed.length + flagged.length = number then
    unrevealed.map (fun q => (q, MoveAction.flag))
  else []

/-- Rule 2 block of `apply_logic_rules`: if `|flagged| = n`, reveal every
unrevealed neighbor. -/
def cell_reveal_moves (b : Board) (p : Coord) : List Move :=
  let number := get_cell_value (b.cell p.1 p.2)
  let unrevealed := get_unrevealed_neighbors b p.1 p.2
  let flagged := get_flagged_neighbors b p.1 p.2
  if flagged.length = number then
    unrevealed.map (fun q => (q, MoveAction.reveal))
  else []

/-- `apply_logic_rules`: for each numbered cell in row-major order, append
the rule-1 flag moves and then the rule-2 reveal moves. -/
def apply_logic_rules (b : Board) : List Move :=
  (get_numbered_cells b).flatMap (fun p => cell_flag_moves b p ++ cell_reveal_moves b p)

/-- `build_constraint_set`: one constraint `(coveredNeighbors, n)` per
numbered cell whose covered neighbor set is non-empty. -/
def build_constraint_set (b : Board) : List Constraint :=
  (get_numbered_cells b).filterMap (fun p =>
    let unrevealed := get_unrevealed_neighbors b p.1 p.2
    if unrevealed.isEmpty then none
    else some (unrevealed, get_cell_value (b.cell p.1 p.2)))

/-- The `all_cells` set of `enumerate_valid_configurations`: the union of
the cells of all constraints (the frontier), duplicate-free. -/
def all_constraint_cells (constraints : List Constraint) : List Coord :=
  (constraints.flatMap Prod.fst).dedup

/-- `len(mine_set & cells) == required` for one constraint. -/
def satisfies_constraint (mine_set : List Coord) (c : Constraint) : Bool :=
  (mine_set.filter (fun x => decide (x ∈ c.1))).length == c.2

/-- The `satisfies_all` check of `enumerate_valid_configurations`. -/
def satisfies_all (mine_set : List Coord) (constraints : List Constraint) : Bool :=
  constraints.all (satisfies_constraint mine_set)

/-- The candidate stream of `enumerate_valid_configurations`: for each
`num_mines` from 0 to `|cells|`, every size-`num_mines` subset of `cells`. -/
def candidate_configs (cells : List Coord) : List (List Coord) :=
  (List.range (cells.length + 1)).flatMap (fun k => List.sublistsLen k cells)

/-- The accumulation loop of `enumerate_valid_configurations`: append each
valid candidate, returning as soon as the accumulator reaches `budget`
(the check runs after every candidate, as in the source). -/
def enumGo (constraints : List Constraint) (budget : Nat) :
    List (List Coord) → List (List Coord) → List (List Coord)
  | [], acc => acc
  | cand :: rest, acc =>
    let acc2 := if satisfies_all cand constraints then acc ++ [cand] else acc
    if budget ≤ acc2.length then acc2 else enumGo constraints budget rest acc2

/-- `enumerate_valid_configurations(constraints, max_iterations)`. -/
def enumerate_valid_configurations (constraints : List Constraint) (budget : Nat) :
    List (List Coord) :=
  let all_cells := all_constraint_cells constraints
  if all_cells.isEmpty then []
  else enumGo constraints budget (candidate_configs all_cells) []

/-- `mine_counts[cell]` of `calculate_probabilities`: total number of
occurrences of `cell` across the configurations. -/
def mine_count (configs : List (List Coord)) (cell : Coord) : Nat :=
  (configs.map (fun cfg => cfg.count cell)).sum

/-- The key set of the `mine_counts` dict, in Python insertion order
(first touch while iterating configurations, then their cells). -/
def dict_keys (configs : List (List Coord)) : List Coord :=
  configs.foldl
    (fun acc cfg => cfg.foldl (fun a cellp => if cellp ∈ a then a else a ++ [cellp]) acc) []

/-- The `probabilities` dict built by `calculate_probabilities` from a
non-empty list of configurations: `cell ↦ mine_counts[cell] / total`. -/
def config_probabilities (configs : List (List Coord)) : List (Coord × ℚ) :=
  (dict_keys configs).map
    (fun cellp => (cellp, (mine_count configs cellp : ℚ) / (configs.length : ℚ)))

/-- The `covered_cells` scan of `calculate_simple_probability` (row-major). -/
def covered_cells (b : Board) : List Coord :=
  (all_coords b.rows b.cols).filter (fun p => b.cell p.1 p.2 == CellState.covered)

/-- The `flagged_count` tally of `calculate_simple_probability`. -/
def flagged_count (b : Board) : Nat :=
  ((all_coords b.rows b.cols).filter (fun p => b.cell p.1 p.2 == CellState.flagged)).length

/-- The total-mines estimate of `calculate_simple_probability`: presets for
the three standard sizes, else `int((rows*cols)*0.15)` (truncation). -/
def default_total_mines (rows cols : Nat) : Nat :=
  if rows = 9 ∧ cols = 9 then 10
  else if rows = 16 ∧ cols = 16 then 40
  else if rows = 16 ∧ cols = 30 then 99
  else 3 * (rows * cols) / 20

/-- `calculate_simple_probability(board, total_mines)`: the uniform estimate
`max(0, total_mines - flagged) / |covered|` over all covered cells (Python
`max(0, a - b)` on integers is natural subtraction here). -/
def calculate_simple_probability (b : Board) (total_mines : Option Nat) :
    List (Coord × ℚ) :=
  let covered := covered_cells b
  if covered.isEmpty then []
  else
    let tm := total_mines.getD (default_total_mines b.rows b.cols)
    let remaining : Nat := tm - flagged_count b
    covered.map (fun cellp => (cellp, (remaining : ℚ) / (covered.length : ℚ)))

/-- `calculate_probabilities(board)`. -/
def calculate_probabilities (b : Board) : List (Coord × ℚ) :=
  let constraints := build_constraint_set b
  if constraints.isEmpty then calculate_simple_probability b none
  else
    let valid_configs := enumerate_valid_configurations constraints MAX_CONFIGURATIONS
    if valid_configs.isEmpty then calculate_simple_probability b none
    else config_probabilities valid_configs

/-- `get_safest_cell`: key of the first entry attaining the minimum value
(Python `min` keeps the earliest minimum). -/
def get_safest_cell (probabilities : List (Coord × ℚ)) : Option Coord :=
  match probabilities with
  | [] => none
  | p :: rest =>
    some (rest.foldl (fun best x => if x.2 < best.2 then x else best) p).1

/-- The corner list tried first by `MinesweeperSolver._make_guess`. -/
def corner_cells (b : Board) : List Coord :=
  [(0, 0), (0, b.cols - 1), (b.rows - 1, 0), (b.rows - 1, b.cols - 1)]

/-- The edge scan of `_make_guess`: for each column left to right, the top
cell then the bottom cell. -/
def edge_scan (b : Board) : List Coord :=
  (List.range b.cols).flatMap (fun c => [(0, c), (b.rows - 1, c)])

/-- The full scan order of `_make_guess`: corners, then the top/bottom edge
scan, then the whole grid row-major. -/
def guess_order (b : Board) : List Coord :=
  corner_cells b ++ edge_scan b ++ all_coords b.rows b.cols

/-- `MinesweeperSolver._make_guess`: three scans with early return on the
first covered cell; empty list when none is covered. -/
def make_guess (b : Board) : List Move :=
  match (corner_cells b).find? (fun p => b.cell p.1 p.2 == CellState.covered) with
  | some p => [(p, MoveAction.reveal)]
  | none =>
    match (edge_scan b).find? (fun p => b.cell p.1 p.2 == CellState.covered) with
    | some p => [(p, MoveAction.reveal)]
    | none =>
      match (all_coords b.rows b.cols).find?
          (fun p => b.cell p.1 p.2 == CellState.covered) with
      | some p => [(p, MoveAction.reveal)]
      | none => []

/-- `MinesweeperSolver.solve`: logic phase, then probability phase, then
guess phase. -/
def solve (b : Board) : List Move :=
  let moves := if ENABLE_LOGIC_RULES then apply_logic_rules b else []
  if moves.isEmpty then
    let probabilities :=
      if ENABLE_PROBABILITY_CALCULATION then calculate_probabilities b else []
    match get_safest_cell probabilities with
    | some cellp => [(cellp, MoveAction.reveal)]
    | none => make_guess b
  else moves

/-- The full (budget-free) list of valid configurations: the candidate
stream filtered by the `satisfies_all` check of the enumerator. -/
def valid_configurations (constraints : List Constraint) : List (List Coord) :=
  (candidate_configs (all_constraint_cells constraints)).filter
    (fun cand => satisfies_all cand constraints)

/-- 1×3 board whose `"1"` at `(0,0)` has the single covered neighbor
`(0,1)` (test vehicle: the logic rules fire deterministically). -/
def board13 : Board := ⟨1, 3, fun r c => if r = 0 ∧ c = 0 then .num 1 else .covered⟩

/-- 1×2 board with a `"5"` next to a single covered cell: its constraint
`({(0,1)}, 5)` is unsatisfiable. -/
def board12 : Board := ⟨1, 2, fun r c => if r = 0 ∧ c = 0 then .num 5 else .covered⟩

/-- 2×2 board, fully covered: no constraints, uniform fallback. -/
def board22 : Board := ⟨2, 2, fun _ _ => .covered⟩

/-- 2×3 board, fully covered: the fallback mine estimate `int(6*0.15)`
truncates to 0. -/
def board23 : Board := ⟨2, 3, fun _ _ => .covered⟩

/-- 9×9 board with exactly one covered cell and no flags: the fallback
assigns it `10/1`. -/
def board9bug : Board :=
  ⟨9, 9, fun r c => if r = 0 ∧ c = 0 then .covered else .uncovered⟩

/-- 9×9 board, fully covered, no flags (the beginner-preset example). -/
def board9all : Board := ⟨9, 9, fun _ _ => .covered⟩

/-- 1×1 board with no covered cell: all phases come up empty. -/
def board11 : Board := ⟨1, 1, fun _ _ => .uncovered⟩

end Solver

namespace Solver

/-! ### Enumeration lemmas -/

/-- As long as the accumulator is below the budget, the enumeration loop
returns the accumulator followed by the valid candidates, truncated at
the budget. -/
lemma enumGo_eq_take (constraints : List Constraint) (budget : Nat) :
    ∀ (cands acc : List (List Coord)), acc.length < budget →
      enumGo constraints budget cands acc =
        acc ++ (cands.filter (fun cand => satisfies_all cand constraints)).take
          (budget - acc.length)
  | [], acc, _ => by simp [enumGo]
  | cand :: rest, acc, h => by
    by_cases hs : satisfies_all cand constraints
    · by_cases hb : budget ≤ acc.length + 1
      · have hbe : budget = acc.length + 1 := le_antisymm hb h
        have ht : budget - acc.length = 1 := by omega
        simp [enumGo, hs, hbe, ht, List.filter_cons]
      · have h2 : (acc ++ [cand]).length < budget := by
          simp only [List.length_append, List.length_cons, List.length_nil]
          omega
        have ih := enumGo_eq_take constraints budget rest (acc ++ [cand]) h2
        have hstep : enumGo constraints budget (cand :: rest) acc =
            enumGo constraints budget rest (acc ++ [cand]) := by
          simp only [enumGo, hs, if_true]
          rw [if_neg (by simp only [List.length_append, List.length_cons,
            List.length_nil]; omega)]
        rw [hstep, ih]
        have ht : budget - acc.length = (budget - (acc ++ [cand]).length) + 1 := by
          simp only [List.length_append, List.length_cons, List.length_nil]
          omega
        simp only [List.filter_cons, hs, if_true, ht, List.take_succ_cons,
          List.length_append, List.length_cons, List.length_nil, List.append_assoc,
          List.cons_append, List.nil_append]
    · have hs' : satisfies_all cand constraints = false := by
        simpa using hs
      have hstep : enumGo constraints budget (cand :: rest) acc =
          enumGo constraints budget rest acc := by
        simp only [enumGo, hs', Bool.false_eq_true, if_false]
        rw [if_neg (by omega)]
      rw [hstep, enumGo_eq_take constraints budget rest acc h]
      simp [List.filter_cons, hs']

/-- Whatever the budget, the enumeration loop result is the accumulator
followed by a prefix of the valid candidates. -/
lemma enumGo_exists_take (constraints : List Constraint) (budget : Nat) :
    ∀ (cands acc : List (List Coord)), ∃ n,
      enumGo constraints budget cands acc =
        acc ++ (cands.filter (fun cand => satisfies_all cand constraints)).take n
  | [], acc => ⟨0, by simp [enumGo]⟩
  | cand :: rest, acc => by
    by_cases hs : satisfies_all cand constraints
    · by_cases hb : budget ≤ acc.length + 1
      · refine ⟨1, ?_⟩
        have hble : budget ≤ (acc ++ [cand]).length := by
          simp only [List.length_append, List.length_cons, List.length_nil]; omega
        simp only [enumGo, hs, if_true, hble, List.filter_cons, List.take_succ_cons,
          List.take_zero]
      · obtain ⟨n, hn⟩ := enumGo_exists_take constraints budget rest (acc ++ [cand])
        refine ⟨n + 1, ?_⟩
        have hstep : enumGo constraints budget (cand :: rest) acc =
            enumGo constraints budget rest (acc ++ [cand]) := by
          simp only [enumGo, hs, if_true]
          rw [if_neg (by simp only [List.length_append, List.length_cons,
            List.length_nil]; omega)]
        rw [hstep, hn]
        simp [List.filter_cons, hs]
    · have hs' : satisfies_all cand constraints = false := by
        simpa using hs
      by_cases hb : budget ≤ acc.length
      · refine ⟨0, ?_⟩
        simp [enumGo, hs', hb]
      · obtain ⟨n, hn⟩ := enumGo_exists_take constraints budget rest acc
        refine ⟨n, ?_⟩
        have hstep : enumGo constraints budget (cand :: rest) acc =
            enumGo constraints budget rest acc := by
          simp only [enumGo, hs', Bool.false_eq_true, if_false]
          rw [if_neg (by omega)]
        rw [hstep, hn]
        simp [List.filter_cons, hs']

/-- Membership in the candidate stream is exactly being a sublist of the
frontier list. -/
lemma mem_candidate_configs {cells : List Coord} {cfg : List Coord} :
    cfg ∈ candidate_configs cells ↔ cfg.Sublist cells := by
  constructor
  · intro h
    simp only [candidate_configs, List.mem_flatMap, List.mem_range] at h
    obtain ⟨k, _, hk⟩ := h
    exact (List.mem_sublistsLen.mp hk).1
  · intro h
    simp only [candidate_configs, List.mem_flatMap, List.mem_range]
    exact ⟨cfg.length, by have := h.length_le; omega,
      List.mem_sublistsLen.mpr ⟨h, rfl⟩⟩

/-- Every configuration returned by the enumerator is a valid sublist of
the frontier. -/
lemma mem_enumerate (constraints : List Constraint) (budget : Nat)
    {cfg : List Coord}
    (h : cfg ∈ enumerate_valid_configurations constraints budget) :
    cfg.Sublist (all_constraint_cells constraints) ∧
      satisfies_all cfg constraints = true := by
  unfold enumerate_valid_configurations at h
  by_cases he : (all_constraint_cells constraints).isEmpty
  · simp [he] at h
  · simp only [he, if_false, Bool.false_eq_true] at h
    obtain ⟨n, hn⟩ := enumGo_exists_take constraints budget
      (candidate_configs (all_constraint_cells constraints)) []
    rw [hn, List.nil_append] at h
    have h2 := List.mem_of_mem_take h
    rw [List.mem_filter] at h2
    exact ⟨mem_candidate_configs.mp h2.1, h2.2⟩

/-- With a positive budget, the enumerator returns exactly the first
`budget` valid configurations of the candidate stream. -/
lemma enumerate_eq_take (constraints : List Constraint) (budget : Nat)
    (hb : 0 < budget)
    (hne : all_constraint_cells constraints ≠ []) :
    enumerate_valid_configurations constraints budget =
      (valid_configurations constraints).take budget := by
  unfold enumerate_valid_configurations
  have he : (all_constraint_cells constraints).isEmpty = false := by
    simpa [List.isEmpty_iff] using hne
  simp only [he, Bool.false_eq_true, if_false]
  rw [enumGo_eq_take constraints budget _ [] (by simpa using hb)]
  simp [valid_configurations]

end Solver

namespace Solver

/-! ### Order and duplicate-freeness of the streams -/

/-- Pairwise property of a `flatMap` over `List.range`: it suffices that
each block is pairwise and that the relation holds across blocks in
ascending index order. -/
lemma pairwise_flatMap_range {α : Type} {R : α → α → Prop} (f : Nat → List α) :
    ∀ (n : Nat), (∀ k, (f k).Pairwise R) →
      (∀ j k, j < k → ∀ x ∈ f j, ∀ y ∈ f k, R x y) →
      ((List.range n).flatMap f).Pairwise R := by
  intro n hin hcross
  induction n with
  | zero => simp
  | succ m ih =>
    rw [List.range_succ, List.flatMap_append]
    rw [List.pairwise_append]
    refine ⟨ih, by simpa using hin m, ?_⟩
    intro a ha b hb
    simp only [List.mem_flatMap, List.mem_range] at ha
    obtain ⟨k, hk, hak⟩ := ha
    simp only [List.flatMap_cons, List.flatMap_nil, List.append_nil] at hb
    exact hcross k m hk a hak b hb

/-- The candidate stream lists configurations in non-decreasing size order. -/
lemma pairwise_length_candidate_configs (cells : List Coord) :
    (candidate_configs cells).Pairwise (fun a b => a.length ≤ b.length) := by
  unfold candidate_configs
  apply pairwise_flatMap_range
  · intro k
    apply List.pairwise_of_forall_mem_list
    intro a ha b hb
    rw [List.mem_sublistsLen] at ha hb
    omega
  · intro j k hjk x hx y hy
    rw [List.mem_sublistsLen] at hx hy
    omega

/-- The frontier list is duplicate-free. -/
lemma nodup_all_constraint_cells (constraints : List Constraint) :
    (all_constraint_cells constraints).Nodup :=
  List.nodup_dedup _

/-- Configurations returned by the enumerator are duplicate-free. -/
lemma nodup_of_mem_enumerate {constraints : List Constraint} {budget : Nat}
    {cfg : List Coord}
    (h : cfg ∈ enumerate_valid_configurations constraints budget) :
    cfg.Nodup :=
  ((mem_enumerate constraints budget h).1).nodup (nodup_all_constraint_cells constraints)

/-- For a duplicate-free list, the filtered length used by the
`satisfies_all` check is the cardinality of the set intersection. -/
lemma filter_length_eq_inter_card {cfg : List Coord} (hnd : cfg.Nodup)
    (t : List Coord) :
    (cfg.filter (fun x => decide (x ∈ t))).length =
      (cfg.toFinset ∩ t.toFinset).card := by
  have h1 : (cfg.filter (fun x => decide (x ∈ t))).toFinset.card =
      (cfg.filter (fun x => decide (x ∈ t))).length :=
    List.toFinset_card_of_nodup (hnd.filter _)
  rw [← h1, List.toFinset_filter]
  congr 1
  rw [show (cfg.toFinset ∩ t.toFinset) = cfg.toFinset.filter (fun x => x ∈ t.toFinset)
    from (Finset.filter_mem_eq_inter).symm]
  apply Finset.filter_congr
  intro x _
  simp [List.mem_toFinset]

/-- The `satisfies_all` check says every constraint is met exactly, as a
set-intersection cardinality statement. -/
lemma satisfies_all_iff_card {cfg : List Coord} (hnd : cfg.Nodup)
    (constraints : List Constraint) :
    satisfies_all cfg constraints = true ↔
      ∀ c ∈ constraints, (cfg.toFinset ∩ c.1.toFinset).card = c.2 := by
  unfold satisfies_all satisfies_constraint
  rw [List.all_eq_true]
  constructor
  · intro h c hc
    have := h c hc
    rw [beq_iff_eq] at this
    rw [← filter_length_eq_inter_card hnd c.1]
    exact this
  · intro h c hc
    rw [beq_iff_eq, filter_length_eq_inter_card hnd c.1]
    exact h c hc

end Solver

namespace Solver

/-! ### Claims C1 and C2: the configuration enumerator -/

/-- C1 (counterexample): the claim quantifies over every list of
constraints, but for the empty constraint list the frontier is empty, the
empty configuration `∅` is a valid configuration (it vacuously satisfies
every constraint, and `1 ≤ budget`), yet `enumerate_valid_configurations`
returns the empty list — the empty-frontier early return wins, so the
returned list does not contain every valid configuration. -/
theorem C1_counterexample :
    satisfies_all [] ([] : List Constraint) = true ∧
    ([] : List Coord).Sublist (all_constraint_cells []) ∧
    enumerate_valid_configurations [] MAX_CONFIGURATIONS = [] := by
  refine ⟨by decide, List.nil_sublist _, by decide⟩

/-- C1 (amended): subsets of the frontier are represented canonically as
sublists of the frontier list `all_constraint_cells constraints`. For every
constraint list and budget: (1) every returned configuration meets every
constraint `(cells, required)` exactly, `|config ∩ cells| = required`;
(2) provided the frontier is non-empty, whenever the total number of valid
configurations is at most the budget the returned list contains exactly the
valid configurations (every subset of the frontier meeting all constraints,
and nothing else); (3) for the single constraint `({(0,0),(0,1)}, 1)`,
exactly the two configurations `{(0,1)}` and `{(0,0)}` are returned. -/
theorem C1_enumeration (constraints : List Constraint) (budget : Nat) :
    (∀ cfg ∈ enumerate_valid_configurations constraints budget,
       ∀ c ∈ constraints, (cfg.toFinset ∩ c.1.toFinset).card = c.2)
    ∧ (all_constraint_cells constraints ≠ [] →
       (valid_configurations constraints).length ≤ budget →
       ∀ cfg : List Coord,
         cfg ∈ enumerate_valid_configurations constraints budget ↔
           cfg.Sublist (all_constraint_cells constraints) ∧
             satisfies_all cfg constraints = true)
    ∧ enumerate_valid_configurations
        [([((0:Nat),(0:Nat)), ((0:Nat),(1:Nat))], 1)] MAX_CONFIGURATIONS
      = [[((0:Nat),(1:Nat))], [((0:Nat),(0:Nat))]] := by
  refine ⟨?_, ?_, by decide⟩
  · intro cfg hcfg c hc
    obtain ⟨hsub, hsat⟩ := mem_enumerate constraints budget hcfg
    exact (satisfies_all_iff_card
      (hsub.nodup (nodup_all_constraint_cells constraints)) constraints).mp hsat c hc
  · intro hne hlen cfg
    have hfull : enumerate_valid_configurations constraints budget =
        valid_configurations constraints := by
      rcases Nat.eq_zero_or_pos budget with hb0 | hbpos
      · subst hb0
        have hval : valid_configurations constraints = [] :=
          List.length_eq_zero.mp (Nat.le_zero.mp hlen)
        obtain ⟨n, hn⟩ := enumGo_exists_take constraints 0
          (candidate_configs (all_constraint_cells constraints)) []
        unfold enumerate_valid_configurations
        have he : (all_constraint_cells constraints).isEmpty = false := by
          simpa [List.isEmpty_iff] using hne
        simp only [he, Bool.false_eq_true, if_false]
        rw [hn, hval]
        have : (candidate_configs (all_constraint_cells constraints)).filter
            (fun cand => satisfies_all cand constraints) = [] := hval
        simp [this]
      · rw [enumerate_eq_take constraints budget hbpos hne]
        exact List.take_of_length_le hlen
    rw [hfull]
    unfold valid_configurations
    rw [List.mem_filter, mem_candidate_configs]

/-- C1 witness: the amended theorem applied to the example constraint,
with the non-empty-frontier and within-budget hypotheses discharged
concretely: the configuration `[(0,1)]` is returned because it is a valid
sublist of the frontier. -/
theorem C1_enumeration_witness :
    [((0:Nat),(1:Nat))] ∈ enumerate_valid_configurations
      [([((0:Nat),(0:Nat)), ((0:Nat),(1:Nat))], 1)] MAX_CONFIGURATIONS :=
  ((C1_enumeration [([((0:Nat),(0:Nat)), ((0:Nat),(1:Nat))], 1)]
      MAX_CONFIGURATIONS).2.1 (by decide) (by decide)
    [((0:Nat),(1:Nat))]).mpr ⟨by decide, by decide⟩

/-- C2: for every constraint list and positive budget, the enumerator
returns at most `budget` configurations; when more than `budget` valid
configurations exist, exactly `budget` are returned (the truncation-at-
budget semantics of the early return, even mid size class); the sizes of
the returned configurations are non-decreasing across the list (lowest
feasible mine counts first); and an empty frontier yields an empty
result. -/
theorem C2_budget (constraints : List Constraint) (budget : Nat)
    (hb : 0 < budget) :
    (enumerate_valid_configurations constraints budget).length ≤ budget
    ∧ (budget < (valid_configurations constraints).length →
        (enumerate_valid_configurations constraints budget).length = budget)
    ∧ ((enumerate_valid_configurations constraints budget).map
        List.length).Pairwise (fun m n => m ≤ n)
    ∧ (all_constraint_cells constraints = [] →
        enumerate_valid_configurations constraints budget = []) := by
  by_cases hne : all_constraint_cells constraints = []
  · have hz : enumerate_valid_configurations constraints budget = [] := by
      unfold enumerate_valid_configurations
      simp [hne]
    refine ⟨by rw [hz]; simp, ?_, ?_, fun _ => hz⟩
    · intro hlt
      exfalso
      have h1 : (valid_configurations constraints).length ≤ 1 := by
        unfold valid_configurations
        rw [hne]
        have hc : candidate_configs ([] : List Coord) = [[]] := rfl
        rw [hc]
        exact List.length_filter_le _ _
      omega
    · rw [hz]; simp
  · have htake := enumerate_eq_take constraints budget hb hne
    refine ⟨?_, ?_, ?_, fun h => absurd h hne⟩
    · rw [htake, List.length_take]
      omega
    · intro hlt
      rw [htake, List.length_take]
      omega
    · rw [htake]
      rw [List.pairwise_map]
      exact ((pairwise_length_candidate_configs
          (all_constraint_cells constraints)).filter _).sublist
        (List.take_sublist _ _) |>.imp id

/-- C2 witness: with budget 1 and the two-cell constraint having two valid
configurations, exactly one configuration is returned. -/
theorem C2_budget_witness :
    (enumerate_valid_configurations
      [([((0:Nat),(0:Nat)), ((0:Nat),(1:Nat))], 1)] 1).length = 1 :=
  (C2_budget [([((0:Nat),(0:Nat)), ((0:Nat),(1:Nat))], 1)] 1 (by decide)).2.1
    (by decide)

/-! ### Claim C3: the logic rules -/

/-- A flag move is in the rule-1 block of a numbered cell iff the
saturation condition holds and the target is a covered neighbor. -/
lemma mem_cell_flag_moves {b : Board} {p rc : Coord} :
    (rc, MoveAction.flag) ∈ cell_flag_moves b p ↔
      rc ∈ get_unrevealed_neighbors b p.1 p.2 ∧
        (get_unrevealed_neighbors b p.1 p.2).length +
          (get_flagged_neighbors b p.1 p.2).length =
            get_cell_value (b.cell p.1 p.2) := by
  unfold cell_flag_moves
  by_cases h : (get_unrevealed_neighbors b p.1 p.2).length +
      (get_flagged_neighbors b p.1 p.2).length = get_cell_value (b.cell p.1 p.2)
  · simp only [h, if_true, List.mem_map]
    constructor
    · rintro ⟨q, hq, he⟩
      cases he
      exact ⟨hq, trivial⟩
    · rintro ⟨hq, -⟩
      exact ⟨rc, hq, rfl⟩
  · simp [h]

/-- A reveal move is in the rule-2 block of a numbered cell iff the
exhaustion condition holds and the target is a covered neighbor. -/
lemma mem_cell_reveal_moves {b : Board} {p rc : Coord} :
    (rc, MoveAction.reveal) ∈ cell_reveal_moves b p ↔
      rc ∈ get_unrevealed_neighbors b p.1 p.2 ∧
        (get_flagged_neighbors b p.1 p.2).length =
          get_cell_value (b.cell p.1 p.2) := by
  unfold cell_reveal_moves
  by_cases h : (get_flagged_neighbors b p.1 p.2).length =
      get_cell_value (b.cell p.1 p.2)
  · simp only [h, if_true, List.mem_map]
    constructor
    · rintro ⟨q, hq, he⟩
      cases he
      exact ⟨hq, trivial⟩
    · rintro ⟨hq, -⟩
      exact ⟨rc, hq, rfl⟩
  · simp [h]

/-- The rule-1 block contains only flag moves. -/
lemma flag_moves_action {b : Board} {p : Coord} {mv : Move}
    (h : mv ∈ cell_flag_moves b p) : mv.2 = MoveAction.flag := by
  unfold cell_flag_moves at h
  by_cases hc : (get_unrevealed_neighbors b p.1 p.2).length +
      (get_flagged_neighbors b p.1 p.2).length = get_cell_value (b.cell p.1 p.2)
  · simp only [hc, if_true, List.mem_map] at h
    obtain ⟨q, -, he⟩ := h
    rw [← he]
  · simp [hc] at h

/-- The rule-2 block contains only reveal moves. -/
lemma reveal_moves_action {b : Board} {p : Coord} {mv : Move}
    (h : mv ∈ cell_reveal_moves b p) : mv.2 = MoveAction.reveal := by
  unfold cell_reveal_moves at h
  by_cases hc : (get_flagged_neighbors b p.1 p.2).length =
      get_cell_value (b.cell p.1 p.2)
  · simp only [hc, if_true, List.mem_map] at h
    obtain ⟨q, -, he⟩ := h
    rw [← he]
  · simp [hc] at h

/-- Any move in either per-cell block targets a covered neighbor of that
numbered cell. -/
lemma block_move_target {b : Board} {p : Coord} {mv : Move}
    (h : mv ∈ cell_flag_moves b p ++ cell_reveal_moves b p) :
    mv.1 ∈ get_unrevealed_neighbors b p.1 p.2 := by
  rw [List.mem_append] at h
  rcases h with h | h
  · have ha := flag_moves_action h
    have : mv = (mv.1, MoveAction.flag) := by
      cases mv; simp_all
    rw [this] at h
    exact (mem_cell_flag_moves.mp h).1
  · have ha := reveal_moves_action h
    have : mv = (mv.1, MoveAction.reveal) := by
      cases mv; simp_all
    rw [this] at h
    exact (mem_cell_reveal_moves.mp h).1

/-- The row-major coordinate scan, characterized. -/
lemma mem_all_coords {rows cols : Nat} {p : Coord} :
    p ∈ all_coords rows cols ↔ p.1 < rows ∧ p.2 < cols := by
  unfold all_coords
  simp only [List.mem_flatMap, List.mem_range, List.mem_map]
  constructor
  · rintro ⟨r, hr, c, hc, he⟩
    cases he
    exact ⟨hr, hc⟩
  · rintro ⟨h1, h2⟩
    exact ⟨p.1, h1, p.2, h2, by simp⟩

/-- The row-major coordinate scan is sorted in lexicographic order. -/
lemma pairwise_all_coords (rows cols : Nat) :
    (all_coords rows cols).Pairwise
      (fun p q => p.1 < q.1 ∨ (p.1 = q.1 ∧ p.2 < q.2)) := by
  unfold all_coords
  apply pairwise_flatMap_range
  · intro r
    rw [List.pairwise_map]
    exact (List.pairwise_lt_range cols).imp (fun h => Or.inr ⟨rfl, h⟩)
  · intro j k hjk x hx y hy
    rw [List.mem_map] at hx hy
    obtain ⟨c1, -, he1⟩ := hx
    obtain ⟨c2, -, he2⟩ := hy
    rw [← he1, ← he2]
    exact Or.inl hjk

/-- Numbered cells are scanned in row-major order. -/
lemma pairwise_get_numbered_cells (b : Board) :
    (get_numbered_cells b).Pairwise
      (fun p q => p.1 < q.1 ∨ (p.1 = q.1 ∧ p.2 < q.2)) :=
  (pairwise_all_coords b.rows b.cols).filter _

/-- C3: for every board, `apply_logic_rules` emits a flag move on `rc` iff
some numbered cell has `rc` among its covered neighbors and satisfies the
saturation condition `|unrevealed| + |flagged| = n`, and a reveal move on
`rc` iff some numbered cell has `rc` among its covered neighbors and
satisfies the exhaustion condition `|flagged| = n` (the two rules are
checked independently, so both may fire for one cell); every numbered cell
has value `n ≥ 1`; the output is the concatenation, over numbered cells in
row-major scan order, of that cell's flag moves followed by its reveal
moves. -/
theorem C3_logic_rules (b : Board) :
    (∀ p ∈ get_numbered_cells b, 1 ≤ get_cell_value (b.cell p.1 p.2))
    ∧ (∀ rc : Coord,
        (rc, MoveAction.flag) ∈ apply_logic_rules b ↔
          ∃ p ∈ get_numbered_cells b,
            rc ∈ get_unrevealed_neighbors b p.1 p.2 ∧
              (get_unrevealed_neighbors b p.1 p.2).length +
                (get_flagged_neighbors b p.1 p.2).length =
                  get_cell_value (b.cell p.1 p.2))
    ∧ (∀ rc : Coord,
        (rc, MoveAction.reveal) ∈ apply_logic_rules b ↔
          ∃ p ∈ get_numbered_cells b,
            rc ∈ get_unrevealed_neighbors b p.1 p.2 ∧
              (get_flagged_neighbors b p.1 p.2).length =
                get_cell_value (b.cell p.1 p.2))
    ∧ apply_logic_rules b =
        (get_numbered_cells b).flatMap
          (fun p => cell_flag_moves b p ++ cell_reveal_moves b p)
    ∧ (get_numbered_cells b).Pairwise
        (fun p q => p.1 < q.1 ∨ (p.1 = q.1 ∧ p.2 < q.2)) := by
  refine ⟨?_, ?_, ?_, rfl, pairwise_get_numbered_cells b⟩
  · intro p hp
    rw [get_numbered_cells, List.mem_filter] at hp
    have h2 := hp.2
    revert h2
    cases b.cell p.1 p.2 with
    | num n =>
      intro h2
      simp only [is_numbered_cell, bne_iff_ne, ne_eq] at h2
      simp only [get_cell_value]
      omega
    | covered => intro h2; simp [is_numbered_cell] at h2
    | flagged => intro h2; simp [is_numbered_cell] at h2
    | mine => intro h2; simp [is_numbered_cell] at h2
    | uncovered => intro h2; simp [is_numbered_cell] at h2
    | unknown => intro h2; simp [is_numbered_cell] at h2
  · intro rc
    unfold apply_logic_rules
    rw [List.mem_flatMap]
    constructor
    · rintro ⟨p, hp, hmem⟩
      rw [List.mem_append] at hmem
      rcases hmem with h | h
      · obtain ⟨h1, h2⟩ := mem_cell_flag_moves.mp h
        exact ⟨p, hp, h1, h2⟩
      · have hact := reveal_moves_action h
        simp at hact
    · rintro ⟨p, hp, h1, h2⟩
      exact ⟨p, hp,
        List.mem_append.mpr (Or.inl (mem_cell_flag_moves.mpr ⟨h1, h2⟩))⟩
  · intro rc
    unfold apply_logic_rules
    rw [List.mem_flatMap]
    constructor
    · rintro ⟨p, hp, hmem⟩
      rw [List.mem_append] at hmem
      rcases hmem with h | h
      · have hact := flag_moves_action h
        simp at hact
      · obtain ⟨h1, h2⟩ := mem_cell_reveal_moves.mp h
        exact ⟨p, hp, h1, h2⟩
    · rintro ⟨p, hp, h1, h2⟩
      exact ⟨p, hp,
        List.mem_append.mpr (Or.inr (mem_cell_reveal_moves.mpr ⟨h1, h2⟩))⟩

end Solver

namespace Solver

/-! ### Claim C7: the constraint builder -/

/-- `filterMap` with a guard is `filter` then `map`. -/
lemma filterMap_guard {α β : Type} (e : α → Bool) (g : α → β) (l : List α) :
    l.filterMap (fun a => if e a then none else some (g a)) =
      (l.filter (fun a => !e a)).map g := by
  induction l with
  | nil => rfl
  | cons x xs ih =>
    by_cases hx : e x
    · simp [List.filterMap_cons, List.filter_cons, hx, ih]
    · simp [List.filterMap_cons, List.filter_cons, hx, ih]

/-- `build_constraint_set` as a filter-then-map over numbered cells. -/
lemma build_constraint_set_eq (b : Board) :
    build_constraint_set b =
      ((get_numbered_cells b).filter
        (fun p => !(get_unrevealed_neighbors b p.1 p.2).isEmpty)).map
        (fun p => (get_unrevealed_neighbors b p.1 p.2,
          get_cell_value (b.cell p.1 p.2))) := by
  unfold build_constraint_set
  exact filterMap_guard _ _ _

/-- Membership characterization of the constraint list. -/
lemma mem_build_constraint_set {b : Board} {c : Constraint} :
    c ∈ build_constraint_set b ↔
      ∃ p ∈ get_numbered_cells b,
        get_unrevealed_neighbors b p.1 p.2 ≠ [] ∧
          c = (get_unrevealed_neighbors b p.1 p.2,
            get_cell_value (b.cell p.1 p.2)) := by
  rw [build_constraint_set_eq, List.mem_map]
  constructor
  · rintro ⟨p, hp, he⟩
    rw [List.mem_filter] at hp
    refine ⟨p, hp.1, ?_, he.symm⟩
    have := hp.2
    simpa [List.isEmpty_iff] using this
  · rintro ⟨p, hp, hne, he⟩
    refine ⟨p, ?_, he.symm⟩
    rw [List.mem_filter]
    exact ⟨hp, by simpa [List.isEmpty_iff] using hne⟩

/-- C7 (counterexample): on the 1×2 board `["5", Covered]` the numbered
cell's constraint `({(0,1)}, 5)` violates `required ≤ |cells|`, yet the
builder emits it — unsatisfiable numbered cells are not skipped. -/
theorem C7_counterexample :
    build_constraint_set board12 = [([((0:Nat),(1:Nat))], 5)] ∧
    (([((0:Nat),(1:Nat))], 5) : Constraint).1.length < 5 := by
  constructor
  · decide
  · decide

/-- C7 (amended): for every board, `build_constraint_set` emits one
constraint `(coveredNeighbors, n)` per numbered cell whose covered
neighbor set is non-empty — including numbered cells whose constraint is
unsatisfiable (`required > |cells|`), which are NOT skipped but included
like any other; numbered cells with no covered neighbors contribute
nothing; the builder is total (never an error). -/
theorem C7_constraint_builder (b : Board) :
    (∀ c : Constraint,
      c ∈ build_constraint_set b ↔
        ∃ p ∈ get_numbered_cells b,
          get_unrevealed_neighbors b p.1 p.2 ≠ [] ∧
            c = (get_unrevealed_neighbors b p.1 p.2,
              get_cell_value (b.cell p.1 p.2)))
    ∧ (build_constraint_set b).length =
        ((get_numbered_cells b).filter
          (fun p => !(get_unrevealed_neighbors b p.1 p.2).isEmpty)).length := by
  refine ⟨fun c => mem_build_constraint_set, ?_⟩
  rw [build_constraint_set_eq, List.length_map]

end Solver

namespace Solver

/-! ### Claim C4: probabilities from enumerated configurations -/

/-- The inner fold of `dict_keys` collects exactly the old keys plus the
cells of the configuration. -/
lemma mem_dict_keys_inner (cfg : List Coord) :
    ∀ (a : List Coord) (x : Coord),
      (x ∈ cfg.foldl (fun a2 cellp => if cellp ∈ a2 then a2 else a2 ++ [cellp]) a) ↔
        x ∈ a ∨ x ∈ cfg := by
  induction cfg with
  | nil => intro a x; simp
  | cons y ys ih =>
    intro a x
    rw [List.foldl_cons, ih]
    by_cases hy : y ∈ a
    · simp only [hy, if_true, List.mem_cons]
      constructor
      · rintro (h | h)
        · exact Or.inl h
        · exact Or.inr (Or.inr h)
      · rintro (h | h | h)
        · exact Or.inl h
        · exact Or.inl (h ▸ hy)
        · exact Or.inr h
    · simp only [hy, if_false, List.mem_append, List.mem_singleton, List.mem_cons]
      tauto
  
/-- The keys of the `mine_counts` dict are the cells appearing in at least
one configuration. -/
lemma mem_dict_keys {configs : List (List Coord)} {x : Coord} :
    x ∈ dict_keys configs ↔ ∃ cfg ∈ configs, x ∈ cfg := by
  unfold dict_keys
  suffices h : ∀ (a : List Coord),
      (x ∈ configs.foldl
        (fun acc cfg => cfg.foldl
          (fun a2 cellp => if cellp ∈ a2 then a2 else a2 ++ [cellp]) acc) a) ↔
        x ∈ a ∨ ∃ cfg ∈ configs, x ∈ cfg by
    rw [h []]
    simp
  induction configs with
  | nil => intro a; simp
  | cons cfg rest ih =>
    intro a
    rw [List.foldl_cons, ih, mem_dict_keys_inner]
    simp only [List.mem_cons]
    constructor
    · rintro ((h | h) | ⟨c, hc, hx⟩)
      · exact Or.inl h
      · exact Or.inr ⟨cfg, Or.inl rfl, h⟩
      · exact Or.inr ⟨c, Or.inr hc, hx⟩
    · rintro (h | ⟨c, (rfl | hc), hx⟩)
      · exact Or.inl (Or.inl h)
      · exact Or.inl (Or.inr hx)
      · exact Or.inr ⟨c, hc, hx⟩

/-- In a duplicate-free list, a member is counted exactly once. -/
lemma count_eq_one_of_nodup {l : List Coord} {a : Coord}
    (hnd : l.Nodup) (ha : a ∈ l) : l.count a = 1 := by
  induction l with
  | nil => cases ha
  | cons x xs ih =>
    rw [List.count_cons]
    rcases List.mem_cons.mp ha with rfl | hmem
    · have hnotin : a ∉ xs := (List.nodup_cons.mp hnd).1
      rw [List.count_eq_zero.mpr hnotin]
      simp
    · have hne : a ≠ x := by
        rintro rfl; exact (List.nodup_cons.mp hnd).1 hmem
      rw [ih (List.nodup_cons.mp hnd).2 hmem]
      simp [Ne.symm hne]

/-- When every configuration is duplicate-free, the occurrence count of a
cell equals the number of configurations containing it. -/
lemma mine_count_eq_filter {configs : List (List Coord)} {cellp : Coord}
    (hnd : ∀ cfg ∈ configs, cfg.Nodup) :
    mine_count configs cellp =
      (configs.filter (fun cfg => decide (cellp ∈ cfg))).length := by
  induction configs with
  | nil => rfl
  | cons cfg rest ih =>
    have hcfg : cfg.Nodup := hnd cfg (List.mem_cons_self _ _)
    have hrest : ∀ c ∈ rest, c.Nodup := fun c hc => hnd c (List.mem_cons_of_mem _ hc)
    have ih2 := ih hrest
    unfold mine_count at ih2 ⊢
    rw [List.map_cons, List.sum_cons, List.filter_cons]
    by_cases hx : cellp ∈ cfg
    · rw [count_eq_one_of_nodup hcfg hx]
      rw [if_pos (by simpa using hx), List.length_cons, ih2]
      omega
    · rw [List.count_eq_zero.mpr hx]
      rw [if_neg (by simpa using hx), ih2]
      omega

/-- Membership in the probability dict built from configurations. -/
lemma mem_config_probabilities {configs : List (List Coord)} {rc : Coord} {q : ℚ} :
    (rc, q) ∈ config_probabilities configs ↔
      rc ∈ dict_keys configs ∧
        q = (mine_count configs rc : ℚ) / (configs.length : ℚ) := by
  unfold config_probabilities
  rw [List.mem_map]
  constructor
  · rintro ⟨cellp, hc, he⟩
    obtain ⟨h1, h2⟩ := Prod.mk.injEq .. ▸ he
    exact ⟨h1 ▸ hc, by rw [← h1, h2]⟩
  · rintro ⟨h1, h2⟩
    exact ⟨rc, h1, by rw [h2]⟩

/-- On the configuration path, `calculate_probabilities` is the dict built
from the enumerated configurations. -/
lemma calculate_probabilities_config_path {b : Board}
    (h1 : build_constraint_set b ≠ [])
    (h2 : enumerate_valid_configurations (build_constraint_set b)
        MAX_CONFIGURATIONS ≠ []) :
    calculate_probabilities b =
      config_probabilities (enumerate_valid_configurations
        (build_constraint_set b) MAX_CONFIGURATIONS) := by
  unfold calculate_probabilities
  have e1 : (build_constraint_set b).isEmpty = false := by
    simpa [List.isEmpty_iff] using h1
  have e2 : (enumerate_valid_configurations (build_constraint_set b)
      MAX_CONFIGURATIONS).isEmpty = false := by
    simpa [List.isEmpty_iff] using h2
  simp only [e1, e2, Bool.false_eq_true, if_false]

/-- C4: when constraints exist and enumeration found at least one valid
configuration, the probability map contains exactly the coordinates that
appear in at least one configuration, each mapped to (number of
configurations containing it) / (total configurations); frontier cells in
zero configurations are absent. -/
theorem C4_probability_map (b : Board)
    (h1 : build_constraint_set b ≠ [])
    (h2 : enumerate_valid_configurations (build_constraint_set b)
        MAX_CONFIGURATIONS ≠ []) :
    (∀ rc : Coord,
       (∃ q : ℚ, (rc, q) ∈ calculate_probabilities b) ↔
         ∃ cfg ∈ enumerate_valid_configurations (build_constraint_set b)
             MAX_CONFIGURATIONS, rc ∈ cfg)
    ∧ ∀ rc : Coord, ∀ q : ℚ, (rc, q) ∈ calculate_probabilities b →
        q = (((enumerate_valid_configurations (build_constraint_set b)
                MAX_CONFIGURATIONS).filter
                  (fun cfg => decide (rc ∈ cfg))).length : ℚ)
          / ((enumerate_valid_configurations (build_constraint_set b)
                MAX_CONFIGURATIONS).length : ℚ) := by
  rw [calculate_probabilities_config_path h1 h2]
  have hnd : ∀ cfg ∈ enumerate_valid_configurations (build_constraint_set b)
      MAX_CONFIGURATIONS, cfg.Nodup :=
    fun cfg hc => nodup_of_mem_enumerate hc
  constructor
  · intro rc
    constructor
    · rintro ⟨q, hq⟩
      exact mem_dict_keys.mp (mem_config_probabilities.mp hq).1
    · intro h
      exact ⟨_, mem_config_probabilities.mpr ⟨mem_dict_keys.mpr h, rfl⟩⟩
  · intro rc q hq
    obtain ⟨-, hval⟩ := mem_config_probabilities.mp hq
    rw [hval, mine_count_eq_filter hnd]

/-- C4 witness: on the 1×3 board the single constraint `({(0,1)}, 1)` has
the single configuration `{(0,1)}`, so the map value 1 equals 1/1. -/
theorem C4_probability_map_witness :
    (1 : ℚ) =
      (((enumerate_valid_configurations (build_constraint_set board13)
          MAX_CONFIGURATIONS).filter
            (fun cfg => decide (((0:Nat),(1:Nat)) ∈ cfg))).length : ℚ)
        / ((enumerate_valid_configurations (build_constraint_set board13)
            MAX_CONFIGURATIONS).length : ℚ) := by
  have hmem : (((0:Nat),(1:Nat)), (1:ℚ)) ∈ calculate_probabilities board13 := by
    rw [calculate_probabilities_config_path (by decide) (by decide)]
    have henum : enumerate_valid_configurations (build_constraint_set board13)
        MAX_CONFIGURATIONS = [[((0:Nat),(1:Nat))]] := by decide
    rw [henum]
    norm_num [config_probabilities, dict_keys, mine_count]
  exact (C4_probability_map board13 (by decide) (by decide)).2
    ((0:Nat),(1:Nat)) 1 hmem

end Solver

namespace Solver

/-! ### Claim C5: phase ordering and safest-cell selection -/

/-- The fold inside `get_safest_cell` returns an element of the list that
attains the minimum value (Python `min` keeps the earliest minimum). -/
lemma foldl_min_spec (l : List (Coord × ℚ)) :
    ∀ p : Coord × ℚ,
      (l.foldl (fun best x => if x.2 < best.2 then x else best) p) ∈ p :: l ∧
        ∀ x ∈ p :: l,
          (l.foldl (fun best x => if x.2 < best.2 then x else best) p).2 ≤ x.2 := by
  induction l with
  | nil =>
    intro p
    refine ⟨by simp, ?_⟩
    intro x hx
    rw [List.mem_singleton] at hx
    rw [hx, List.foldl_nil]
  | cons y ys ih =>
    intro p
    rw [List.foldl_cons]
    by_cases hc : y.2 < p.2
    · rw [if_pos hc]
      obtain ⟨hm, hle⟩ := ih y
      constructor
      · rcases List.mem_cons.mp hm with h | h
        · rw [h]
          exact List.mem_cons_of_mem _ (List.mem_cons_self _ _)
        · exact List.mem_cons_of_mem _ (List.mem_cons_of_mem _ h)
      · intro x hx
        rcases List.mem_cons.mp hx with rfl | hx2
        · exact le_trans (hle y (List.mem_cons_self _ _)) (le_of_lt hc)
        · exact hle x hx2
    · rw [if_neg hc]
      obtain ⟨hm, hle⟩ := ih p
      constructor
      · rcases List.mem_cons.mp hm with h | h
        · rw [h]
          exact List.mem_cons_self _ _
        · exact List.mem_cons_of_mem _ (List.mem_cons_of_mem _ h)
      · intro x hx
        rcases List.mem_cons.mp hx with rfl | hx2
        · exact hle x (List.mem_cons_self _ _)
        · rcases List.mem_cons.mp hx2 with rfl | hx3
          · exact le_trans (hle p (List.mem_cons_self _ _)) (not_lt.mp hc)
          · exact hle x (List.mem_cons_of_mem _ hx3)

/-- When `get_safest_cell` selects a coordinate, that coordinate carries a
value in the map attaining the minimum. -/
lemma get_safest_cell_spec {probs : List (Coord × ℚ)} {rc : Coord}
    (h : get_safest_cell probs = some rc) :
    ∃ q : ℚ, (rc, q) ∈ probs ∧ ∀ e ∈ probs, q ≤ e.2 := by
  match probs, h with
  | p :: rest, h =>
    unfold get_safest_cell at h
    injection h with h
    obtain ⟨hm, hle⟩ := foldl_min_spec rest p
    refine ⟨(rest.foldl (fun best x => if x.2 < best.2 then x else best) p).2,
      ?_, hle⟩
    rw [← h]
    simpa using hm

/-- `get_safest_cell` is `none` exactly on the empty map. -/
lemma get_safest_cell_eq_none {probs : List (Coord × ℚ)} :
    get_safest_cell probs = none ↔ probs = [] := by
  cases probs with
  | nil => simp [get_safest_cell]
  | cons p rest => simp [get_safest_cell]

/-- With the default feature toggles, non-empty logic moves are returned
as-is. -/
lemma solve_logic {b : Board} (h : apply_logic_rules b ≠ []) :
    solve b = apply_logic_rules b := by
  unfold solve
  have he : (apply_logic_rules b).isEmpty = false := by
    simpa [List.isEmpty_iff] using h
  simp [ENABLE_LOGIC_RULES, he]

/-- With the default feature toggles and no logic moves, `solve` reduces
to the probability/guess dispatch. -/
lemma solve_of_no_logic {b : Board} (h : apply_logic_rules b = []) :
    solve b =
      match get_safest_cell (calculate_probabilities b) with
      | some cellp => [(cellp, MoveAction.reveal)]
      | none => make_guess b := by
  unfold solve
  simp [ENABLE_LOGIC_RULES, ENABLE_PROBABILITY_CALCULATION, h]

/-- C5: under the default configuration, `solve` returns exactly the
logic-rule move list whenever it is non-empty; otherwise, whenever the
probability map is non-empty, it returns exactly one reveal on a
coordinate attaining the minimum probability in the map; and on the map
`{(0,0): 0.8, (0,1): 0.2, (1,0): 0.5}` the selected cell is `(0,1)`. -/
theorem C5_solve_phases (b : Board) :
    (apply_logic_rules b ≠ [] → solve b = apply_logic_rules b)
    ∧ (apply_logic_rules b = [] → calculate_probabilities b ≠ [] →
        ∃ rc : Coord, ∃ q : ℚ,
          solve b = [(rc, MoveAction.reveal)] ∧
            (rc, q) ∈ calculate_probabilities b ∧
            ∀ e ∈ calculate_probabilities b, q ≤ e.2)
    ∧ get_safest_cell
        [(((0:Nat),(0:Nat)), (8:ℚ)/10), (((0:Nat),(1:Nat)), (2:ℚ)/10),
          (((1:Nat),(0:Nat)), (5:ℚ)/10)] = some ((0:Nat),(1:Nat)) := by
  refine ⟨solve_logic, ?_, by norm_num [get_safest_cell]⟩
  intro h1 h2
  cases hs : get_safest_cell (calculate_probabilities b) with
  | none => exact absurd (get_safest_cell_eq_none.mp hs) h2
  | some rc =>
    obtain ⟨q, hmem, hmin⟩ := get_safest_cell_spec hs
    refine ⟨rc, q, ?_, hmem, hmin⟩
    rw [solve_of_no_logic h1, hs]

end Solver

namespace Solver

/-! ### Claims C6 and C8: the uniform fallback estimate -/

/-- When the constraint list is empty, or enumeration found no valid
configuration, `calculate_probabilities` is the uniform fallback. -/
lemma calculate_probabilities_simple_path {b : Board}
    (h : build_constraint_set b = [] ∨
      enumerate_valid_configurations (build_constraint_set b)
        MAX_CONFIGURATIONS = []) :
    calculate_probabilities b = calculate_simple_probability b none := by
  unfold calculate_probabilities
  rcases h with h | h
  · simp [h]
  · by_cases hc : (build_constraint_set b).isEmpty
    · simp [hc]
    · simp only [hc, Bool.false_eq_true, if_false, h, List.isEmpty_nil, if_true]

/-- Membership characterization of the uniform fallback map. -/
lemma mem_calculate_simple_probability {b : Board} {rc : Coord} {q : ℚ} :
    (rc, q) ∈ calculate_simple_probability b none ↔
      rc ∈ covered_cells b ∧
        q = ((default_total_mines b.rows b.cols - flagged_count b : Nat) : ℚ)
          / ((covered_cells b).length : ℚ) := by
  unfold calculate_simple_probability
  by_cases hc : (covered_cells b).isEmpty
  · have : covered_cells b = [] := List.isEmpty_iff.mp hc
    simp [hc, this]
  · simp only [hc, Bool.false_eq_true, if_false, Option.getD_none, List.mem_map]
    constructor
    · rintro ⟨cellp, hmem, he⟩
      obtain ⟨h1, h2⟩ := Prod.mk.injEq .. ▸ he
      exact ⟨h1 ▸ hmem, h2.symm⟩
    · rintro ⟨hmem, he⟩
      exact ⟨rc, hmem, by rw [← he]⟩

/-- The `max(0, ·)` of the source on integers is natural subtraction. -/
lemma natSub_cast_eq_max {a b : Nat} :
    ((a - b : Nat) : ℚ) = ((max 0 ((a : ℤ) - (b : ℤ)) : ℤ) : ℚ) := by
  have h : ((a - b : Nat) : ℤ) = max 0 ((a : ℤ) - (b : ℤ)) := by omega
  exact_mod_cast congrArg (fun z : ℤ => (z : ℚ)) h

/-- C6 (counterexample): on the all-covered 2×3 board with no flags, the
claim's formula `round(rows*cols*0.15) = round(0.9) = 1` would give every
covered cell probability `1/6`, but the code computes
`int(6*0.15) = 0` and assigns probability `0` — truncation, not
rounding. -/
theorem C6_counterexample :
    (((0:Nat),(0:Nat)), (0:ℚ)) ∈ calculate_probabilities board23 ∧
    ((max 0 (round (((2:ℚ) * 3) * (15/100))) : ℤ) : ℚ)
        / ((covered_cells board23).length : ℚ) ≠ (0:ℚ) := by
  constructor
  · rw [calculate_probabilities_simple_path (Or.inl (by decide))]
    rw [mem_calculate_simple_probability]
    refine ⟨by decide, ?_⟩
    have h1 : default_total_mines board23.rows board23.cols
        - flagged_count board23 = 0 := by decide
    have h2 : (covered_cells board23).length = 6 := by decide
    rw [h1, h2]
    norm_num
  · have hr : round (((2:ℚ) * 3) * (15/100)) = 1 := by norm_num [round_eq]
    have h2 : (covered_cells board23).length = 6 := by decide
    rw [hr, h2]
    norm_num

/-- C6 (amended): when no constraints exist or enumeration produced zero
valid configurations, the probability map is the uniform fallback: empty
when no covered cell exists; its keys are exactly the covered cells; every
value is the identical `max(0, totalMines - flaggedCount) / coveredCount`,
where `totalMines` is 10 for 9×9, 40 for 16×16, 99 for 16×30, and
`int(rows*cols*0.15)` — truncation, not rounding — for any other size. -/
theorem C6_fallback (b : Board)
    (h : build_constraint_set b = [] ∨
      enumerate_valid_configurations (build_constraint_set b)
        MAX_CONFIGURATIONS = []) :
    (covered_cells b = [] → calculate_probabilities b = [])
    ∧ (∀ rc : Coord,
        (∃ q : ℚ, (rc, q) ∈ calculate_probabilities b) ↔ rc ∈ covered_cells b)
    ∧ (∀ rc : Coord, ∀ q : ℚ, (rc, q) ∈ calculate_probabilities b →
        q = ((max 0 ((default_total_mines b.rows b.cols : ℤ)
              - (flagged_count b : ℤ)) : ℤ) : ℚ)
          / ((covered_cells b).length : ℚ))
    ∧ default_total_mines 9 9 = 10 ∧ default_total_mines 16 16 = 40
    ∧ default_total_mines 16 30 = 99
    ∧ default_total_mines 2 3 = 3 * (2 * 3) / 20 := by
  rw [calculate_probabilities_simple_path h]
  refine ⟨?_, ?_, ?_, by decide, by decide, by decide, by decide⟩
  · intro hcov
    unfold calculate_simple_probability
    simp [hcov]
  · intro rc
    constructor
    · rintro ⟨q, hq⟩
      exact (mem_calculate_simple_probability.mp hq).1
    · intro hmem
      exact ⟨_, mem_calculate_simple_probability.mpr ⟨hmem, rfl⟩⟩
  · intro rc q hq
    rw [(mem_calculate_simple_probability.mp hq).2, natSub_cast_eq_max]

/-- C6 witness: the all-covered 9×9 board with no flags gets the beginner
preset, and every covered cell — `(0,0)` in particular — receives
probability `10/81`. -/
theorem C6_fallback_witness :
    (((0:Nat),(0:Nat)), (10:ℚ)/81) ∈ calculate_probabilities board9all ∧
    (10:ℚ)/81 =
      ((max 0 ((default_total_mines board9all.rows board9all.cols : ℤ)
          - (flagged_count board9all : ℤ)) : ℤ) : ℚ)
        / ((covered_cells board9all).length : ℚ) := by
  have hmem : (((0:Nat),(0:Nat)), (10:ℚ)/81) ∈ calculate_probabilities board9all := by
    rw [calculate_probabilities_simple_path (Or.inl (by decide))]
    rw [mem_calculate_simple_probability]
    refine ⟨by decide, ?_⟩
    have h1 : default_total_mines board9all.rows board9all.cols
        - flagged_count board9all = 10 := by decide
    have h2 : (covered_cells board9all).length = 81 := by decide
    rw [h1, h2]
    norm_num
  exact ⟨hmem,
    (C6_fallback board9all (Or.inl (by decide))).2.2.1 ((0:Nat),(0:Nat))
      ((10:ℚ)/81) hmem⟩

/-- C8 (code bug evaluation): on the 9×9 board with a single covered cell
and no flags, the fallback assigns probability `10/1 = 10 > 1`; the
docstring of `calculate_probabilities` ("0.0 to 1.0") and the repository's
own test `test_calculate_probabilities` promise values in `[0, 1]`. -/
theorem C8_value_exceeds_one :
    (((0:Nat),(0:Nat)), (10:ℚ)) ∈ calculate_probabilities board9bug ∧
    ¬ ((10:ℚ) ≤ 1) := by
  constructor
  · rw [calculate_probabilities_simple_path (Or.inl (by decide))]
    rw [mem_calculate_simple_probability]
    refine ⟨by decide, ?_⟩
    have h1 : default_total_mines board9bug.rows board9bug.cols
        - flagged_count board9bug = 10 := by decide
    have h2 : (covered_cells board9bug).length = 1 := by decide
    rw [h1, h2]
    norm_num
  · norm_num

end Solver

namespace Solver

/-! ### Claim C5 witness, and claims C9 and C10 -/

/-- C5 witness: on the 1×3 board the logic phase fires and is returned
verbatim; on the all-covered 2×2 board the logic phase is empty, the
fallback map is non-empty, and `solve` returns the single minimum
probability reveal. -/
theorem C5_solve_phases_witness :
    solve board13 = apply_logic_rules board13 ∧ solve board22 ≠ [] := by
  constructor
  · exact (C5_solve_phases board13).1 (by decide)
  · have hmem0 : (((0:Nat),(0:Nat)),
        ((default_total_mines board22.rows board22.cols
            - flagged_count board22 : Nat) : ℚ)
          / ((covered_cells board22).length : ℚ)) ∈
            calculate_probabilities board22 := by
      rw [calculate_probabilities_simple_path (Or.inl (by decide))]
      exact mem_calculate_simple_probability.mpr ⟨by decide, rfl⟩
    have hne : calculate_probabilities board22 ≠ [] := by
      intro hnil
      rw [hnil] at hmem0
      cases hmem0
    obtain ⟨rc, q, hs, -, -⟩ := (C5_solve_phases board22).2.1 (by decide) hne
    rw [hs]
    simp

/-- The three sequential scans of `_make_guess` are one `find?` over the
concatenated guess order. -/
lemma make_guess_eq_find (b : Board) :
    make_guess b =
      match (guess_order b).find?
          (fun p => b.cell p.1 p.2 == CellState.covered) with
      | some rc => [(rc, MoveAction.reveal)]
      | none => [] := by
  unfold make_guess guess_order
  rw [List.find?_append, List.find?_append]
  cases h1 : (corner_cells b).find?
      (fun p => b.cell p.1 p.2 == CellState.covered) with
  | some p => simp
  | none =>
    simp only [Option.none_or]
    cases h2 : (edge_scan b).find?
        (fun p => b.cell p.1 p.2 == CellState.covered) with
    | some p => simp
    | none =>
      simp only [Option.none_or]

/-- Every coordinate in the guess order of a non-degenerate board is in
bounds. -/
lemma guess_order_bounds {b : Board} (h1 : 0 < b.rows) (h2 : 0 < b.cols)
    {x : Coord} (hx : x ∈ guess_order b) : x.1 < b.rows ∧ x.2 < b.cols := by
  unfold guess_order at hx
  rw [List.mem_append, List.mem_append] at hx
  rcases hx with (hx | hx) | hx
  · unfold corner_cells at hx
    simp only [List.mem_cons, List.not_mem_nil, or_false] at hx
    rcases hx with rfl | rfl | rfl | rfl
    · exact ⟨h1, h2⟩
    · exact ⟨h1, by omega⟩
    · exact ⟨by omega, h2⟩
    · exact ⟨by omega, by omega⟩
  · unfold edge_scan at hx
    rw [List.mem_flatMap] at hx
    obtain ⟨c, hc, hx⟩ := hx
    rw [List.mem_range] at hc
    simp only [List.mem_cons, List.not_mem_nil, or_false] at hx
    rcases hx with rfl | rfl
    · exact ⟨h1, hc⟩
    · exact ⟨by omega, hc⟩
  · exact mem_all_coords.mp hx

/-- C9: when the logic phase and the probability phase both produce
nothing, `solve` scans the four corners, then for each column left to
right the top and bottom cell, then the full grid row-major
(`guess_order`), returning a single reveal on the first covered cell; when
that scan finds none — equivalently, when no in-bounds cell is covered —
`solve` returns the empty move list. -/
theorem C9_guess_phase (b : Board) (h1 : 0 < b.rows) (h2 : 0 < b.cols)
    (hl : apply_logic_rules b = []) (hp : calculate_probabilities b = []) :
    (∀ rc : Coord,
       (guess_order b).find? (fun p => b.cell p.1 p.2 == CellState.covered)
           = some rc →
         solve b = [(rc, MoveAction.reveal)])
    ∧ ((guess_order b).find? (fun p => b.cell p.1 p.2 == CellState.covered)
          = none →
        solve b = [])
    ∧ ((guess_order b).find? (fun p => b.cell p.1 p.2 == CellState.covered)
          = none ↔
        ∀ r c : Nat, r < b.rows → c < b.cols →
          b.cell r c ≠ CellState.covered) := by
  have hsolve : solve b = make_guess b := by
    rw [solve_of_no_logic hl, hp]
    rfl
  refine ⟨?_, ?_, ?_⟩
  · intro rc hrc
    rw [hsolve, make_guess_eq_find, hrc]
  · intro hnone
    rw [hsolve, make_guess_eq_find, hnone]
  · constructor
    · intro hnone r c hr hc hcov
      rw [List.find?_eq_none] at hnone
      have hmem : ((r, c) : Coord) ∈ guess_order b := by
        unfold guess_order
        rw [List.mem_append]
        right
        exact mem_all_coords.mpr ⟨hr, hc⟩
      have hne := hnone (r, c) hmem
      rw [beq_iff_eq] at hne
      exact hne hcov
    · intro hforall
      rw [List.find?_eq_none]
      intro x hx
      obtain ⟨hr, hc⟩ := guess_order_bounds h1 h2 hx
      rw [beq_iff_eq]
      exact hforall x.1 x.2 hr hc

/-- C9 witness: the 1×1 board with its only cell uncovered — all phases
come up empty and `solve` returns the empty move list. -/
theorem C9_guess_phase_witness : solve board11 = [] := by
  have hp : calculate_probabilities board11 = [] := by
    rw [calculate_probabilities_simple_path (Or.inl (by decide))]
    unfold calculate_simple_probability
    have hcov : covered_cells board11 = [] := by decide
    simp [hcov]
  exact (C9_guess_phase board11 (by decide) (by decide) (by decide) hp).2.1
    (by decide)

/-- Covered-neighbor targets are in-bounds covered cells. -/
lemma mem_unrevealed_covered {b : Board} {row col : Nat} {q : Coord}
    (h : q ∈ get_unrevealed_neighbors b row col) :
    q.1 < b.rows ∧ q.2 < b.cols ∧ b.cell q.1 q.2 = CellState.covered := by
  unfold get_unrevealed_neighbors get_neighbors at h
  rw [List.mem_filter] at h
  obtain ⟨hin, h2⟩ := h
  rw [List.mem_filter] at hin
  obtain ⟨hall, -⟩ := hin
  obtain ⟨hr, hc⟩ := mem_all_coords.mp hall
  refine ⟨hr, hc, ?_⟩
  rwa [beq_iff_eq] at h2

/-- Entries of the covered-cell scan are in-bounds covered cells. -/
lemma covered_cells_bounds {b : Board} {rc : Coord}
    (h : rc ∈ covered_cells b) :
    rc.1 < b.rows ∧ rc.2 < b.cols ∧ b.cell rc.1 rc.2 = CellState.covered := by
  unfold covered_cells at h
  rw [List.mem_filter] at h
  obtain ⟨hin, hcov⟩ := h
  obtain ⟨hr, hc⟩ := mem_all_coords.mp hin
  refine ⟨hr, hc, ?_⟩
  rwa [beq_iff_eq] at hcov

/-- Every key of the probability map is an in-bounds covered cell. -/
lemma probability_entries_covered {b : Board} {rc : Coord} {q : ℚ}
    (h : (rc, q) ∈ calculate_probabilities b) :
    rc.1 < b.rows ∧ rc.2 < b.cols ∧ b.cell rc.1 rc.2 = CellState.covered := by
  by_cases hd : build_constraint_set b = [] ∨
      enumerate_valid_configurations (build_constraint_set b)
        MAX_CONFIGURATIONS = []
  · rw [calculate_probabilities_simple_path hd] at h
    exact covered_cells_bounds (mem_calculate_simple_probability.mp h).1
  · push_neg at hd
    rw [calculate_probabilities_config_path hd.1 hd.2] at h
    have hkey := (mem_config_probabilities.mp h).1
    obtain ⟨cfg, hcfg, hrc⟩ := mem_dict_keys.mp hkey
    have hsub := (mem_enumerate _ _ hcfg).1
    have hfront : rc ∈ all_constraint_cells (build_constraint_set b) :=
      hsub.mem hrc
    rw [all_constraint_cells, List.mem_dedup, List.mem_flatMap] at hfront
    obtain ⟨c, hcmem, hrcc⟩ := hfront
    obtain ⟨p, hp, hne, hceq⟩ := mem_build_constraint_set.mp hcmem
    rw [hceq] at hrcc
    exact mem_unrevealed_covered hrcc

/-- Every logic move targets an in-bounds covered cell. -/
lemma logic_moves_covered {b : Board} {mv : Move}
    (h : mv ∈ apply_logic_rules b) :
    mv.1.1 < b.rows ∧ mv.1.2 < b.cols ∧
      b.cell mv.1.1 mv.1.2 = CellState.covered := by
  unfold apply_logic_rules at h
  rw [List.mem_flatMap] at h
  obtain ⟨p, hp, hmem⟩ := h
  exact mem_unrevealed_covered (block_move_target hmem)

/-- Every guess move targets an in-bounds covered cell. -/
lemma make_guess_covered {b : Board} (h1 : 0 < b.rows) (h2 : 0 < b.cols)
    {mv : Move} (h : mv ∈ make_guess b) :
    mv.1.1 < b.rows ∧ mv.1.2 < b.cols ∧
      b.cell mv.1.1 mv.1.2 = CellState.covered := by
  rw [make_guess_eq_find] at h
  cases hf : (guess_order b).find?
      (fun p => b.cell p.1 p.2 == CellState.covered) with
  | none =>
    rw [hf] at h
    cases h
  | some p =>
    rw [hf] at h
    rw [List.mem_singleton] at h
    subst h
    have hcov := List.find?_some hf
    have hmem := List.mem_of_find?_eq_some hf
    obtain ⟨hr, hc⟩ := guess_order_bounds h1 h2 hmem
    refine ⟨hr, hc, ?_⟩
    rwa [beq_iff_eq] at hcov

/-- C10: for every board with at least one row and one column, every move
returned by `solve` — logic-rule moves, the minimum-probability reveal,
and guess-phase reveals — targets an in-bounds coordinate whose cell is
covered on the input board. -/
theorem C10_moves_in_bounds (b : Board) (h1 : 0 < b.rows) (h2 : 0 < b.cols) :
    ∀ mv ∈ solve b, mv.1.1 < b.rows ∧ mv.1.2 < b.cols ∧
      b.cell mv.1.1 mv.1.2 = CellState.covered := by
  intro mv hmv
  by_cases hl : apply_logic_rules b = []
  · rw [solve_of_no_logic hl] at hmv
    cases hs : get_safest_cell (calculate_probabilities b) with
    | some rc =>
      rw [hs] at hmv
      rw [List.mem_singleton] at hmv
      subst hmv
      obtain ⟨q, hmem, -⟩ := get_safest_cell_spec hs
      exact probability_entries_covered hmem
    | none =>
      rw [hs] at hmv
      exact make_guess_covered h1 h2 hmv
  · rw [solve_logic hl] at hmv
    exact logic_moves_covered hmv

/-- C10 witness: on the 1×3 board `solve` flags `(0,1)`, which is an
in-bounds covered cell. -/
theorem C10_moves_in_bounds_witness :
    (0:Nat) < board13.rows ∧ (1:Nat) < board13.cols ∧
      board13.cell 0 1 = CellState.covered :=
  C10_moves_in_bounds board13 (by decide) (by decide)
    ((((0:Nat),(1:Nat))), MoveAction.flag) (by decide)

end Solver

namespace Solver

/-- C3 witness: on the 1×3 board the `"1"` at `(0,0)` has the single
covered neighbor `(0,1)` and no flags, so the saturation rule flags
`(0,1)`. -/
theorem C3_logic_rules_witness :
    ((((0:Nat),(1:Nat))), MoveAction.flag) ∈ apply_logic_rules board13 :=
  ((C3_logic_rules board13).2.1 ((0:Nat),(1:Nat))).mpr
    ⟨((0:Nat),(0:Nat)), by decide, by decide, by decide⟩

/-- C7 witness: the unsatisfiable constraint of `board12` is emitted by
the builder. -/
theorem C7_constraint_builder_witness :
    (([((0:Nat),(1:Nat))], 5) : Constraint) ∈ build_constraint_set board12 :=
  ((C7_constraint_builder board12).1 ([((0:Nat),(1:Nat))], 5)).mpr
    ⟨((0:Nat),(0:Nat)), by decide, by decide, by decide⟩

end Solver
